import Mathlib

/-!
# Verification of the RAGBackend request-admission layer

Shallow embedding of the request-admission core of `main.py`:
the key normalizer (`normalize_query`, `get_cache_key`), the TTL-LRU cache
(`TTLCache`), the per-IP sliding-window rate limiter (`RateLimiter`), the
`/stats` endpoint (`get_stats`), the `/query` endpoint (`process_query`)
with its downstream-failure classification, and the module-level binding of
`response_cache`.

Python strings are modelled as `List Char`; `time.time()` values as `ℚ`;
Python dicts as association lists.  `str.lower()` is modelled on its ASCII
fragment (uppercase A-Z maps to a-z, everything else is fixed), which covers
every character the trailing-punctuation set and the whitespace model
interact with.
-/

namespace RAGBackend

/-- The whitespace characters recognised by Python's `str.split()` / `str.strip()`
on the ASCII range: space, tab, newline, carriage return, vertical tab, form feed. -/
def pyIsSpace (c : Char) : Bool :=
  c == ' ' || c == '\t' || c == '\n' || c == '\r' || c == '\x0b' || c == '\x0c'

/-- The fixed trailing-punctuation set `'!?.,:;'` of `normalize_query` (main.py line 184). -/
def isTrailPunct (c : Char) : Bool :=
  c == '!' || c == '?' || c == '.' || c == ',' || c == ':' || c == ';'

/-- ASCII fragment of Python's `str.lower()` applied to one character:
codepoints 65-90 (A-Z) are shifted by 32, all other characters are unchanged. -/
def pyToLower (c : Char) : Char :=
  if 65 ≤ c.toNat ∧ c.toNat ≤ 90 then Char.ofNat (c.toNat + 32) else c

/-- Python `str.strip()`: remove leading and trailing whitespace. -/
def stripWs (l : List Char) : List Char :=
  ((l.dropWhile pyIsSpace).reverse.dropWhile pyIsSpace).reverse

/-- Negation of `pyIsSpace`, used by the splitter. -/
def notSpace (c : Char) : Bool := !(pyIsSpace c)

/-- Accumulator-based splitter: `acc` holds the reversed current word. -/
def splitWsAux : List Char → List Char → List (List Char)
  | [], acc => if acc.isEmpty then [] else [acc.reverse]
  | c :: rest, acc =>
    if pyIsSpace c then
      if acc.isEmpty then splitWsAux rest [] else acc.reverse :: splitWsAux rest []
    else splitWsAux rest (c :: acc)

/-- Python `str.split()` with no separator: maximal runs of non-whitespace
characters, empty runs dropped. -/
def splitWs (l : List Char) : List (List Char) := splitWsAux l []

/-- Python `' '.join(ws)`: words joined by single spaces. -/
def joinSp : List (List Char) → List Char
  | [] => []
  | [w] => w
  | w :: w2 :: ws => w ++ ' ' :: joinSp (w2 :: ws)

/-- The `while normalized and normalized[-1] in '!?.,:;'` loop of
`normalize_query` (main.py lines 184-185): repeatedly drop the last character
while it is trailing punctuation. -/
def rstripPunct (l : List Char) : List Char :=
  (l.reverse.dropWhile isTrailPunct).reverse

/-- `normalize_query` (main.py lines 174-186): lowercase, strip, collapse
whitespace runs to single spaces, then strip trailing punctuation. -/
def normalize_query (query : List Char) : List Char :=
  let normalized := stripWs (query.map pyToLower)
  let normalized := joinSp (splitWs normalized)
  rstripPunct normalized

/-- `get_cache_key` (main.py lines 188-194).  `hashlib.md5(...).hexdigest()` is
an external library call; it is passed in as a parameter `md5hex` (the spec
declares the exact digest algorithm a non-contract: only determinism and
fixed output length matter, see C7). -/
def get_cache_key (md5hex : List Char → List Char) (query : List Char) : List Char :=
  let normalized := normalize_query query
  if normalized.length > 200 then md5hex normalized else normalized

/-! ## Association-list model of Python dicts

Python dict semantics: a lookup returns the (unique) binding; assignment
replaces an existing binding in place or appends a new one at the end;
`del` removes the binding. -/

/-- `d.get(key)` / `d[key]` lookup: first (only) binding for `key`. -/
def alistFind {κ β : Type} [DecidableEq κ] (key : κ) : List (κ × β) → Option β
  | [] => none
  | (k, v) :: rest => if k = key then some v else alistFind key rest

/-- `d[key] = v`: replace the binding for `key` if present, else append it. -/
def alistUpdate {κ β : Type} [DecidableEq κ] (key : κ) (v : β) : List (κ × β) → List (κ × β)
  | [] => [(key, v)]
  | (k, w) :: rest => if k = key then (k, v) :: rest else (k, w) :: alistUpdate key v rest

/-- `del d[key]`: remove the binding for `key`. -/
def alistErase {κ β : Type} [DecidableEq κ] (key : κ) (l : List (κ × β)) : List (κ × β) :=
  l.filter (fun e => decide (e.1 ≠ key))

/-! ## TTLCache (main.py lines 18-80)

The `OrderedDict` is modelled as an association list in recency order:
least-recently-used binding first, most-recently-used last.  Keys are
strings (`List Char` in this embedding); values are a type parameter;
`time.time()` values are rationals and every method takes the current
time `now` explicitly. -/

structure TTLCache (α : Type) where
  cache : List (List Char × α × ℚ)
  max_size : Nat
  ttl : ℚ
  hits : Nat
  misses : Nat
deriving DecidableEq

/-- `TTLCache.__init__`. -/
def TTLCache.empty (α : Type) (max_size : Nat) (ttl : ℚ) : TTLCache α :=
  ⟨[], max_size, ttl, 0, 0⟩

/-- Lookup of `key` in the ordered dict, returning the stored `(value, timestamp)` pair. -/
def TTLCache.find (c : TTLCache α) (key : List Char) : Option (α × ℚ) :=
  alistFind key c.cache

/-- `TTLCache.get` (main.py lines 30-48): miss if absent; lazy expiry (delete,
miss) if `now - timestamp > ttl`; otherwise `move_to_end` and a hit. -/
def TTLCache.get (now : ℚ) (key : List Char) (c : TTLCache α) : Option α × TTLCache α :=
  match alistFind key c.cache with
  | none => (none, { c with misses := c.misses + 1 })
  | some (value, timestamp) =>
    if now - timestamp > c.ttl then
      (none, { c with cache := alistErase key c.cache, misses := c.misses + 1 })
    else
      (some value,
       { c with cache := alistErase key c.cache ++ [(key, value, timestamp)],
                hits := c.hits + 1 })

/-- `TTLCache.set` (main.py lines 50-61): delete any old binding, append the
new entry at the most-recently-used end, evict the least-recently-used entry
(the first binding) if the size now exceeds `max_size`. -/
def TTLCache.set (now : ℚ) (key : List Char) (value : α) (c : TTLCache α) : TTLCache α :=
  if (alistErase key c.cache ++ [(key, value, now)]).length > c.max_size then
    { c with cache := (alistErase key c.cache ++ [(key, value, now)]).tail }
  else { c with cache := alistErase key c.cache ++ [(key, value, now)] }

/-- `TTLCache.stats` (main.py lines 69-80).  The code formats `hit_rate` as a
percentage string with two decimals; the model keeps the percentage as a
rational. -/
structure CacheStats where
  size : Nat
  max_size : Nat
  hits : Nat
  misses : Nat
  hit_rate : ℚ
  ttl : ℚ
deriving DecidableEq

def TTLCache.stats (c : TTLCache α) : CacheStats :=
  let total := c.hits + c.misses
  { size := c.cache.length
    max_size := c.max_size
    hits := c.hits
    misses := c.misses
    hit_rate := if total > 0 then (c.hits : ℚ) / (total : ℚ) * 100 else 0
    ttl := c.ttl }

/-! ## RateLimiter (main.py lines 83-120) -/

structure RateLimiter where
  requests_per_minute : Nat
  user_requests : List (String × List ℚ)
deriving DecidableEq

/-- `RateLimiter.is_allowed` (main.py lines 91-111): initialize the history if
absent, prune entries with `now - t ≥ 60` (the pruned list is stored back even
when the request is then denied), deny if the pruned count has reached the
limit, otherwise append `now` and allow. -/
def RateLimiter.is_allowed (now : ℚ) (client_ip : String) (rl : RateLimiter) :
    Bool × RateLimiter :=
  let history := (alistFind client_ip rl.user_requests).getD []
  let pruned := history.filter (fun t => decide (now - t < 60))
  if pruned.length ≥ rl.requests_per_minute then
    (false, { rl with user_requests := alistUpdate client_ip pruned rl.user_requests })
  else
    (true, { rl with user_requests := alistUpdate client_ip (pruned ++ [now]) rl.user_requests })

/-- Minimum of a nonempty timestamp list (`min(...)` in Python); `0` for `[]`
(that case is guarded away by the caller). -/
def listMin : List ℚ → ℚ
  | [] => 0
  | t :: ts => ts.foldl min t

/-- `RateLimiter.get_wait_time` (main.py lines 113-120). -/
def RateLimiter.get_wait_time (now : ℚ) (client_ip : String) (rl : RateLimiter) : ℚ :=
  match alistFind client_ip rl.user_requests with
  | none => 0
  | some [] => 0
  | some (t :: ts) => max 0 (60 - (now - listMin (t :: ts)))

/-! ## Downstream-failure classification (main.py lines 266-295) -/

/-- Python's substring operator `needle in hay`. -/
def containsSub (needle hay : List Char) : Bool :=
  needle.isPrefixOf hay ||
    match hay with
    | [] => false
    | _ :: rest => containsSub needle rest

/-- Python `s.lower()` (ASCII fragment, see `pyToLower`). -/
def lowerStr (l : List Char) : List Char := l.map pyToLower

/-- The stable user-facing message substituted for quota/rate-limit failures
(main.py line 278). -/
def quotaMsg : List Char :=
  "⚠️ API quota exceeded. The free tier limit has been reached. Please try again later or contact support to upgrade.".toList

/-- The stable message for authentication failures (main.py line 282). -/
def authMsg : List Char :=
  "Authentication error. Please check API credentials.".toList

/-- The stable message for connection failures (main.py line 286). -/
def connMsg : List Char :=
  "Failed to connect to the AI service. Please try again.".toList

/-- Prefix of the generic error message (main.py line 290). -/
def genericPrefix : List Char :=
  "An error occurred while processing your query. Details: ".toList

/-- Quota/rate-limit indicators (main.py line 277): `"429" in msg` or
`"quota" in msg.lower()` or `"rate limit" in msg.lower()`. -/
def isQuotaInd (error_message : List Char) : Bool :=
  containsSub ("429".toList) error_message ||
    containsSub ("quota".toList) (lowerStr error_message) ||
    containsSub ("rate limit".toList) (lowerStr error_message)

/-- Authentication indicators (main.py line 281). -/
def isAuthInd (error_message : List Char) : Bool :=
  containsSub ("401".toList) error_message ||
    containsSub ("unauthorized".toList) (lowerStr error_message) ||
    containsSub ("authentication".toList) (lowerStr error_message)

/-- Connectivity indicators (main.py line 285). -/
def isConnInd (error_message : List Char) : Bool :=
  containsSub ("connection".toList) (lowerStr error_message) ||
    containsSub ("timeout".toList) (lowerStr error_message)

/-- The `except` branch of `process_query` (main.py lines 272-295): map the
failure description `str(e)` to an HTTP status code and a user-facing message.
The function is total: every downstream exception is converted, none is
re-raised. -/
def classify_error (error_message : List Char) : Nat × List Char :=
  if isQuotaInd error_message then (429, quotaMsg)
  else if isAuthInd error_message then (500, authMsg)
  else if isConnInd error_message then (503, connMsg)
  else (500, genericPrefix ++ error_message.take 200)

/-! ## Module state and endpoints (main.py lines 122-295)

Line 123 binds `response_cache` to `TTLCache(max_size=100, ttl=3600)`;
line 141 then rebinds the same module-level name to the empty plain dict
`{}`.  The handlers therefore operate on whatever object the name finally
denotes, which the sum type `CacheObj` captures; method calls that a plain
dict does not support raise `AttributeError`. -/

/-- The response dict `{"response": ..., "cached": ...}` built by `process_query`
(main.py lines 256-259). -/
structure RespDict where
  response : List Char
  cached : Bool
deriving DecidableEq

/-- A Python exception, reduced to its `str(e)` rendering. -/
structure PyErr where
  msg : List Char
deriving DecidableEq

/-- `str(AttributeError)` as CPython renders it:
`'<type>' object has no attribute '<name>'`. -/
def attrErrMsg (tyName attr : List Char) : List Char :=
  '\'' :: tyName ++ '\'' :: " object has no attribute ".toList ++ '\'' :: attr ++ ['\'']

/-- The object the module-level name `response_cache` can denote: the
`TTLCache` from line 123, or the plain dict from line 141. -/
inductive CacheObj (α : Type) where
  | ttl (c : TTLCache α)
  | dict (d : List (List Char × α))
deriving DecidableEq

/-- Line 123: `response_cache = TTLCache(max_size=100, ttl=3600)`. -/
def line123_binding (α : Type) : CacheObj α := .ttl (TTLCache.empty α 100 3600)

/-- Line 141: `response_cache = {}` — this rebinding is what the handlers see. -/
def line141_binding (α : Type) : CacheObj α := .dict []

/-- The binding of `response_cache` after module initialization: line 141 wins. -/
def response_cache_init : CacheObj RespDict := line141_binding RespDict

/-- Line 124: `rate_limiter = RateLimiter(requests_per_minute=10)`. -/
def rate_limiter_init : RateLimiter := ⟨10, []⟩

/-- `response_cache.get(cache_key)` as dispatched on the actual object: a
`TTLCache` runs `TTLCache.get`; a plain dict runs `dict.get` (pure lookup,
no mutation, no hit/miss bookkeeping).  Neither call raises. -/
def cacheObjGet (now : ℚ) (key : List Char) : CacheObj α → Option α × CacheObj α
  | .ttl c => let (r, c') := TTLCache.get now key c; (r, .ttl c')
  | .dict d => (alistFind key d, .dict d)

/-- `response_cache.set(cache_key, response)` as dispatched on the actual
object: a `TTLCache` runs `TTLCache.set`; a plain dict has no method `set`,
so the call raises `AttributeError`. -/
def cacheObjSet (now : ℚ) (key : List Char) (value : α) :
    CacheObj α → Except PyErr (CacheObj α)
  | .ttl c => .ok (.ttl (TTLCache.set now key value c))
  | .dict _ => .error ⟨attrErrMsg ("dict".toList) ("set".toList)⟩

/-- Body of the `/stats` response (main.py lines 165-172). -/
structure StatsOut where
  cache : CacheStats
  requests_per_minute : Nat
  active_ips : Nat
deriving DecidableEq

/-- `GET /stats` (main.py lines 159-172): `response_cache.stats()` followed by
the rate-limiter fields.  On a plain dict the `stats` attribute access raises
`AttributeError`, which the handler does not catch. -/
def get_stats (cache : CacheObj α) (rl : RateLimiter) : Except PyErr StatsOut :=
  match cache with
  | .ttl c => .ok ⟨c.stats, rl.requests_per_minute, rl.user_requests.length⟩
  | .dict _ => .error ⟨attrErrMsg ("dict".toList) ("stats".toList)⟩

/-- Outcome of the downstream call `Runner.run(agent, ...)`: the extracted
`final_output` text on success, or `str(e)` of the raised exception. -/
inductive Downstream where
  | ok (text : List Char)
  | err (msg : List Char)

/-- The HTTP-level outcome of one `POST /query` request. -/
structure HttpOut where
  status : Nat
  error : Option (List Char)
  retry_after : Option Int
  response : Option (List Char)
  cached : Option Bool
deriving DecidableEq

/-- Result of `process_query`: the HTTP outcome, whether the downstream call
was invoked, and the new module state. -/
structure PQOut (α : Type) where
  out : HttpOut
  invoked : Bool
  cache : CacheObj α
  rl : RateLimiter
deriving DecidableEq

/-- `POST /query` (main.py lines 196-295), with `time.time()` and the
downstream outcome passed explicitly.  `text` is the `"text"` field of the
JSON body (`none` when missing).  On a cache hit the handler returns the
cached dict with `cached` set to `True`; the in-place effect of that update
on the stored object is treated in the heap model below (`hit_path`). -/
def process_query (md5hex : List Char → List Char) (cache : CacheObj RespDict)
    (rl : RateLimiter) (now : ℚ) (text : Option (List Char)) (client_ip : String)
    (ds : Downstream) : PQOut RespDict :=
  match text with
  | none => ⟨⟨400, some ("No query text provided".toList), none, none, none⟩, false, cache, rl⟩
  | some user_query =>
    if user_query.isEmpty || (stripWs user_query).isEmpty then
      ⟨⟨400, some ("No query text provided".toList), none, none, none⟩, false, cache, rl⟩
    else if user_query.length > 1000 then
      ⟨⟨400, some ("Query too long (max 1000 characters)".toList), none, none, none⟩,
       false, cache, rl⟩
    else
      let (allowed, rl') := rl.is_allowed now client_ip
      if !allowed then
        let wait_time := rl'.get_wait_time now client_ip
        ⟨⟨429, some ("Rate limit exceeded.".toList), some ⌊wait_time⌋, none, none⟩,
         false, cache, rl'⟩
      else
        let cache_key := get_cache_key md5hex user_query
        let (cached_response, cache') := cacheObjGet now cache_key cache
        match cached_response with
        | some r =>
          ⟨⟨200, none, none, some r.response, some true⟩, false, cache', rl'⟩
        | none =>
          match ds with
          | .ok response_text =>
            let response : RespDict := ⟨response_text, false⟩
            match cacheObjSet now cache_key response cache' with
            | .ok cache'' =>
              ⟨⟨200, none, none, some response_text, some false⟩, true, cache'', rl'⟩
            | .error e =>
              let (status_code, error_message) := classify_error e.msg
              ⟨⟨status_code, some error_message, none, none, none⟩, true, cache', rl'⟩
          | .err m =>
            let (status_code, error_message) := classify_error m
            ⟨⟨status_code, some error_message, none, none, none⟩, true, cache', rl'⟩

/-! ## Heap model of the cache-hit path (main.py lines 235-240)

Python stores dicts by reference: the cache entry holds a reference to the
response dict, and `cached_response = response_cache.get(...)` yields that same
reference.  To express what line 239, `cached_response["cached"] = True`, does
to the *stored* entry, response objects are placed on an explicit heap
(address ↦ `RespDict`) and the cache holds addresses. -/

/-- A heap of response objects, addressed by `Nat`. -/
abbrev Heap : Type := List (Nat × RespDict)

/-- The cache-hit branch of `process_query` (main.py lines 235-240), against a
cache whose entries reference heap objects: look the key up (recency move,
hit/miss bookkeeping as in `TTLCache.get`), and on a hit execute
`cached_response["cached"] = True` — an update of the heap object the entry
points at — then return that object.  Returns `none` on a miss. -/
def hit_path (now : ℚ) (key : List Char) (c : TTLCache Nat) (h : Heap) :
    Option (RespDict × TTLCache Nat × Heap) :=
  match TTLCache.get now key c with
  | (some addr, c') =>
    match alistFind addr h with
    | some obj =>
      let obj' : RespDict := { obj with cached := true }
      some (obj', c', alistUpdate addr obj' h)
    | none => none
  | (none, _) => none

/-- No two adjacent characters are both whitespace. -/
abbrev noTwoSpaces (l : List Char) : Prop :=
  l.Chain' (fun a b => pyIsSpace a = false ∨ pyIsSpace b = false)

/-! ## Operation sequences

Harness definitions used to state the invariant claims: folding a list of
`set` calls over a cache, and a list of `is_allowed` calls over a rate
limiter. -/

/-- Apply a sequence of `TTLCache.set` calls `(key, value, now)` in order. -/
def applySets {α : Type} : List (List Char × α × ℚ) → TTLCache α → TTLCache α
  | [], c => c
  | (k, v, t) :: ops, c => applySets ops (TTLCache.set t k v c)

/-- Apply a sequence of `RateLimiter.is_allowed` calls `(client_ip, now)` in order. -/
def applyCalls : List (String × ℚ) → RateLimiter → RateLimiter
  | [], rl => rl
  | (ip, t) :: ops, rl => applyCalls ops (RateLimiter.is_allowed t ip rl).2

/-- The stored timestamp history of one client (empty when absent). -/
def histOf (ip : String) (rl : RateLimiter) : List ℚ :=
  (alistFind ip rl.user_requests).getD []

/-- Run a sequence of `is_allowed` calls for one client at the given times,
collecting the results. -/
def runCalls (ip : String) : List ℚ → RateLimiter → List Bool × RateLimiter
  | [], rl => ([], rl)
  | t :: ts, rl =>
    let step := RateLimiter.is_allowed t ip rl
    let rest := runCalls ip ts step.2
    (step.1 :: rest.1, rest.2)

/-! ## Theorems -/

/-- A stand-in for the external `hashlib.md5(...).hexdigest()`: some function
returning a fixed-length (32-character) string.  Used to instantiate the
`md5hex` parameter on inputs whose normalized form is at most 200 characters
long (where the parameter is irrelevant) and in witnesses. -/
def md5stub32 : List Char → List Char := fun _ => List.replicate 32 'a'

/-- C1: the claim says a successful downstream call is stored via `cache.set`
and returned with `cached=false`, and an identical repeat is a cache hit.  The
code violates this: line 141 rebinds `response_cache` to a plain dict, so
`response_cache.set` raises `AttributeError`, the handler answers 500 with the
generic error text, nothing is cached, and the identical repeated query
invokes the downstream call again. -/
theorem C1_set_raises_nothing_cached :
    process_query md5stub32 response_cache_init rate_limiter_init 0
        (some ("What is physical AI?".toList)) "1.2.3.4"
        (.ok ("Physical AI is ...".toList))
      = ⟨⟨500, some (genericPrefix ++ attrErrMsg ("dict".toList) ("set".toList)),
          none, none, none⟩,
         true, response_cache_init, ⟨10, [("1.2.3.4", [0])]⟩⟩
  ∧ process_query md5stub32 response_cache_init ⟨10, [("1.2.3.4", [0])]⟩ 0
        (some ("What is physical AI?".toList)) "1.2.3.4"
        (.ok ("Physical AI is ...".toList))
      = ⟨⟨500, some (genericPrefix ++ attrErrMsg ("dict".toList) ("set".toList)),
          none, none, none⟩,
         true, response_cache_init, ⟨10, [("1.2.3.4", [0, 0])]⟩⟩ := by
  constructor <;>
    simp [process_query, response_cache_init, line141_binding, rate_limiter_init,
      RateLimiter.is_allowed, alistFind, alistUpdate, cacheObjGet, cacheObjSet,
      get_cache_key, normalize_query, stripWs, splitWs, splitWsAux, joinSp, rstripPunct,
      pyIsSpace, pyToLower, notSpace, isTrailPunct, classify_error, isQuotaInd, isAuthInd,
      isConnInd, containsSub, lowerStr, attrErrMsg, genericPrefix, md5stub32]

/-- C2: the claim says every `GET /stats` call returns 200 with the cache and
rate-limiter statistics.  The code violates this: `response_cache` is the
plain dict bound at line 141, which has no `stats` method, so the handler
raises `AttributeError` on every call and no 200 body is produced. -/
theorem C2_stats_raises (rl : RateLimiter) :
    get_stats response_cache_init rl
      = Except.error ⟨attrErrMsg ("dict".toList) ("stats".toList)⟩ := rfl

/-- C3 (counterexample): `normalize_query` is not idempotent.  For the input
`"a ."` normalization yields `"a "` (the trailing-punctuation loop removes the
dot and then stops at the space it exposed), and normalizing again yields
`"a"`. -/
theorem C3_counterexample :
    ¬ normalize_query (normalize_query ['a', ' ', '.']) = normalize_query ['a', ' ', '.'] := by
  decide

/-- C9 (counterexample): cache entries are not immutable.  On a concrete state
whose cache holds one fresh entry referencing heap address 0, the cache-hit
branch of `process_query` (lines 235-240) mutates the stored response object
in place: the entry still references address 0, but the object at address 0
changes from `cached = false` to `cached = true` — neither a wholesale
replacement of the entry nor a deletion. -/
theorem C9_counterexample :
    hit_path 1 ("k".toList)
        ⟨[(("k".toList), 0, 0)], 100, 3600, 0, 0⟩ [(0, ⟨"r".toList, false⟩)]
      = some (⟨"r".toList, true⟩,
              ⟨[(("k".toList), 0, 0)], 100, 3600, 1, 0⟩,
              [(0, ⟨"r".toList, true⟩)])
  ∧ ((⟨"r".toList, true⟩ : RespDict) = ⟨"r".toList, false⟩ → False) := by
  constructor
  · simp [hit_path, TTLCache.get, alistFind, alistErase, alistUpdate]
  · simp

/-- C8: every downstream failure is converted to a typed error and never
propagated: quota/rate-limit indicators (checked first) give 429 with the
stable rewritten message; otherwise credential/authorization indicators give
500; otherwise connectivity/timeout indicators give 503; anything else gives
500 carrying the generic text plus an excerpt of the original failure
description that is at most 200 characters long and is a prefix of it.
`classify_error` is total, so no exception escapes the handler. -/
theorem C8_error_classification (msg : List Char) :
    classify_error msg
      = (if isQuotaInd msg then (429, quotaMsg)
         else if isAuthInd msg then (500, authMsg)
         else if isConnInd msg then (503, connMsg)
         else (500, genericPrefix ++ msg.take 200))
  ∧ ((classify_error msg).1 = 429 ∨ (classify_error msg).1 = 500 ∨
      (classify_error msg).1 = 503)
  ∧ (msg.take 200).length ≤ 200
  ∧ msg.take 200 <+: msg := by
  refine ⟨rfl, ?_, ?_, List.take_prefix 200 msg⟩
  · unfold classify_error
    split
    · exact Or.inl rfl
    split
    · exact Or.inr (Or.inl rfl)
    split
    · exact Or.inr (Or.inr rfl)
    · exact Or.inr (Or.inl rfl)
  · simp

/-- C7: below the 200-character threshold the cache key is the normalized
query itself, so two keys collide only when the normalized forms are equal;
above the threshold the key is the (fixed-length, deterministic) digest of
the normalized form.  The digest is the external `hashlib.md5` hexdigest,
abstracted as any function of fixed output length 32. -/
theorem C7_cache_key_threshold (md5hex : List Char → List Char)
    (hlen : ∀ s, (md5hex s).length = 32)
    (q1 q2 : List Char)
    (h1 : (normalize_query q1).length ≤ 200) (h2 : (normalize_query q2).length ≤ 200)
    (q : List Char) (hq : (normalize_query q).length > 200) :
    (get_cache_key md5hex q1 = get_cache_key md5hex q2 →
      normalize_query q1 = normalize_query q2)
  ∧ get_cache_key md5hex q = md5hex (normalize_query q)
  ∧ (get_cache_key md5hex q).length = 32 := by
  unfold get_cache_key
  rw [if_neg (by omega), if_neg (by omega), if_pos hq]
  exact ⟨fun h => h, rfl, hlen _⟩

set_option maxRecDepth 4000 in
/-- Witness for C7 at concrete inputs: the one-character queries `"a"` and
`"b"` (normalized length 1) and a 201-character query (normalized length
201), with a concrete fixed-length digest function. -/
theorem C7_witness :
    (get_cache_key md5stub32 ['a'] = get_cache_key md5stub32 ['b'] →
      normalize_query ['a'] = normalize_query ['b'])
  ∧ get_cache_key md5stub32 (List.replicate 201 'a')
      = md5stub32 (normalize_query (List.replicate 201 'a'))
  ∧ (get_cache_key md5stub32 (List.replicate 201 'a')).length = 32 :=
  C7_cache_key_threshold md5stub32 (fun _ => by simp [md5stub32]) ['a'] ['b']
    (by decide) (by decide) (List.replicate 201 'a') (by decide)

/-- C5: a `get` issued at time `insertedAt + ttl + ε` with `ε > 0` returns
absent, deletes the entry, and increments the miss counter.  The cache is
arbitrary, so the claim covers entries in any recency position, including the
most-recently-used one. -/
theorem C5_ttl_expiry {α : Type} (c : TTLCache α) (key : List Char) (v : α) (tIns : ℚ)
    (hmem : c.find key = some (v, tIns)) (eps : ℚ) (heps : 0 < eps) :
    (TTLCache.get (tIns + c.ttl + eps) key c).1 = none
  ∧ (TTLCache.get (tIns + c.ttl + eps) key c).2.cache = alistErase key c.cache
  ∧ (TTLCache.get (tIns + c.ttl + eps) key c).2.misses = c.misses + 1 := by
  have hfind : alistFind key c.cache = some (v, tIns) := hmem
  simp only [TTLCache.get, hfind]
  rw [if_pos (by linarith)]
  exact ⟨rfl, rfl, rfl⟩

/-- Witness for C5: a singleton cache (its entry is most-recently-used) with
`ttl = 10`, inserted at time 0 and read at time `0 + 10 + 1`. -/
theorem C5_witness :
    (TTLCache.get ((0 : ℚ) + 10 + 1) ("k".toList)
        (⟨[(("k".toList), 5, 0)], 100, 10, 0, 0⟩ : TTLCache Nat)).1 = none
  ∧ (TTLCache.get ((0 : ℚ) + 10 + 1) ("k".toList)
        (⟨[(("k".toList), 5, 0)], 100, 10, 0, 0⟩ : TTLCache Nat)).2.cache
      = alistErase ("k".toList) [(("k".toList), 5, 0)]
  ∧ (TTLCache.get ((0 : ℚ) + 10 + 1) ("k".toList)
        (⟨[(("k".toList), 5, 0)], 100, 10, 0, 0⟩ : TTLCache Nat)).2.misses = 0 + 1 :=
  C5_ttl_expiry ⟨[(("k".toList), 5, 0)], 100, 10, 0, 0⟩ ("k".toList) 5 0
    (by simp [TTLCache.find, alistFind]) 1 (by simp)

/-! Helper lemmas about association lists and `TTLCache.set`. -/

theorem alistFind_eq_none_of_not_mem {α : Type} (key : List Char)
    (l : List (List Char × α)) (h : key ∉ l.map Prod.fst) : alistFind key l = none := by
  induction l with
  | nil => rfl
  | cons e rest ih =>
    obtain ⟨k, v⟩ := e
    simp only [List.map_cons, List.mem_cons] at h
    push_neg at h
    simp only [alistFind]
    rw [if_neg (fun hc => h.1 hc.symm)]
    exact ih h.2

theorem alistErase_of_find_none {α : Type} (key : List Char)
    (l : List (List Char × α)) (h : alistFind key l = none) : alistErase key l = l := by
  induction l with
  | nil => rfl
  | cons e rest ih =>
    obtain ⟨k, v⟩ := e
    simp only [alistFind] at h
    by_cases hk : k = key
    · rw [if_pos hk] at h
      exact absurd h (by simp)
    · rw [if_neg hk] at h
      simp only [alistErase, List.filter_cons]
      rw [if_pos (by simp [hk])]
      exact congrArg (List.cons (k, v)) (ih h)

theorem alistErase_length_le {α : Type} (key : List Char) (l : List (List Char × α)) :
    (alistErase key l).length ≤ l.length :=
  List.length_filter_le _ l

theorem alistFind_append {α : Type} (key : List Char) (l₁ l₂ : List (List Char × α)) :
    alistFind key (l₁ ++ l₂)
      = match alistFind key l₁ with
        | some v => some v
        | none => alistFind key l₂ := by
  induction l₁ with
  | nil => simp [alistFind]
  | cons e rest ih =>
    obtain ⟨k, v⟩ := e
    by_cases hk : k = key <;> simp [alistFind, hk, ih]

theorem TTLCache.set_max_size {α : Type} (now : ℚ) (key : List Char) (v : α)
    (c : TTLCache α) : (TTLCache.set now key v c).max_size = c.max_size := by
  unfold TTLCache.set
  split <;> rfl

theorem TTLCache.set_size_le {α : Type} (now : ℚ) (key : List Char) (v : α)
    (c : TTLCache α) (h : c.cache.length ≤ c.max_size) :
    (TTLCache.set now key v c).cache.length ≤ c.max_size := by
  unfold TTLCache.set
  have herase := alistErase_length_le key c.cache
  split <;> (rename_i hsplit; simp_all; try omega)

theorem applySets_max_size {α : Type} (ops : List (List Char × α × ℚ))
    (c : TTLCache α) : (applySets ops c).max_size = c.max_size := by
  induction ops generalizing c with
  | nil => rfl
  | cons op ops ih =>
    obtain ⟨k, v, t⟩ := op
    rw [applySets, ih, TTLCache.set_max_size]

theorem applySets_size_le {α : Type} (ops : List (List Char × α × ℚ))
    (c : TTLCache α) (h : c.cache.length ≤ c.max_size) :
    (applySets ops c).cache.length ≤ c.max_size := by
  induction ops generalizing c with
  | nil => exact h
  | cons op ops ih =>
    obtain ⟨k, v, t⟩ := op
    rw [applySets]
    have := ih (TTLCache.set t k v c)
      (by rw [TTLCache.set_max_size]; exact TTLCache.set_size_le t k v c h)
    rwa [TTLCache.set_max_size] at this

theorem applySets_append {α : Type} (l₁ l₂ : List (List Char × α × ℚ))
    (c : TTLCache α) : applySets (l₁ ++ l₂) c = applySets l₂ (applySets l₁ c) := by
  induction l₁ generalizing c with
  | nil => rfl
  | cons op ops ih =>
    obtain ⟨k, v, t⟩ := op
    rw [List.cons_append, applySets, applySets, ih]

theorem applySets_fresh {α : Type} (ops : List (List Char × α × ℚ)) (c : TTLCache α)
    (hfresh : ∀ e ∈ ops, alistFind e.1 c.cache = none)
    (hnodup : (ops.map Prod.fst).Nodup)
    (hcap : c.cache.length + ops.length ≤ c.max_size) :
    applySets ops c = { c with cache := c.cache ++ ops } := by
  induction ops generalizing c with
  | nil => simp [applySets]
  | cons op ops ih =>
    obtain ⟨k, v, t⟩ := op
    rw [applySets]
    have hkfresh : alistFind k c.cache = none := hfresh (k, v, t) (List.mem_cons_self _ _)
    have hset : TTLCache.set t k v c = { c with cache := c.cache ++ [(k, v, t)] } := by
      unfold TTLCache.set
      rw [alistErase_of_find_none k c.cache hkfresh]
      rw [if_neg (by simp at hcap ⊢; omega)]
    rw [hset]
    have hkn : k ∉ ops.map Prod.fst := by
      simp only [List.map_cons, List.nodup_cons] at hnodup
      exact hnodup.1
    have := ih { c with cache := c.cache ++ [(k, v, t)] }
      (by
        intro e he
        rw [alistFind_append]
        rw [hfresh e (List.mem_cons_of_mem _ he)]
        have hek : ¬ k = e.1 := by
          intro hcontra
          exact hkn (hcontra ▸ List.mem_map_of_mem Prod.fst he)
        show alistFind e.1 [(k, v, t)] = none
        simp only [alistFind]
        rw [if_neg hek])
      (by
        simp only [List.map_cons, List.nodup_cons] at hnodup
        exact hnodup.2)
      (by simp at hcap ⊢; omega)
    rw [this]
    simp

/-- C4: starting from the empty cache, after every sequence of `set` calls the
number of stored entries is at most `maxSize` (so in particular after each
prefix of any call sequence); and a sequence of `maxSize + 1` `set` calls with
pairwise-distinct keys leaves exactly the entries of all calls but the first,
in insertion order — the least-recently-touched key (the first inserted, no
`get` intervening) is the one evicted. -/
theorem C4_lru_bound_and_eviction {α : Type} (maxSize : Nat) (ttl : ℚ) :
    (∀ ops : List (List Char × α × ℚ),
        (applySets ops (TTLCache.empty α maxSize ttl)).cache.length ≤ maxSize)
  ∧ (∀ ops : List (List Char × α × ℚ),
        (ops.map Prod.fst).Nodup → ops.length = maxSize + 1 →
        (applySets ops (TTLCache.empty α maxSize ttl)).cache = ops.tail) := by
  constructor
  · intro ops
    exact applySets_size_le ops (TTLCache.empty α maxSize ttl) (by simp [TTLCache.empty])
  · intro ops hnodup hlen
    rcases List.eq_nil_or_concat ops with rfl | ⟨ops₁, e, rfl⟩
    · simp at hlen
    obtain ⟨k, v, t⟩ := e
    rw [List.concat_eq_append] at hnodup hlen ⊢
    rw [List.map_append] at hnodup
    rw [List.nodup_append] at hnodup
    obtain ⟨hnodup₁, _, hdisj⟩ := hnodup
    have hkn : k ∉ ops₁.map Prod.fst := by
      intro hk
      exact hdisj hk (by simp)
    have hlen₁ : ops₁.length = maxSize := by
      simp at hlen
      omega
    rw [applySets_append]
    have h₁ : applySets ops₁ (TTLCache.empty α maxSize ttl)
        = { TTLCache.empty α maxSize ttl with cache := [] ++ ops₁ } := by
      apply applySets_fresh
      · intro e _; rfl
      · exact hnodup₁
      · simp [TTLCache.empty]; omega
    rw [h₁]
    simp only [applySets]
    unfold TTLCache.set
    have hfind : alistFind k (([] : List (List Char × α × ℚ)) ++ ops₁) = none := by
      simpa using alistFind_eq_none_of_not_mem k ops₁ hkn
    rw [alistErase_of_find_none k _ hfind]
    rw [if_pos (by simp [hlen₁, TTLCache.empty])]
    simp

/-- Witness for C4 at `maxSize = 2`: a three-call sequence with a repeated key
stays within the bound, and three distinct keys leave exactly the last two
entries (the first-inserted key `"a"` is evicted). -/
theorem C4_witness :
    (applySets [(['a'], 1, 0), (['b'], 2, 0), (['a'], 3, 1)]
        (TTLCache.empty Nat 2 3600)).cache.length ≤ 2
  ∧ (applySets [(['a'], 1, 0), (['b'], 2, 0), (['c'], 3, 0)]
        (TTLCache.empty Nat 2 3600)).cache
      = [(['a'], 1, 0), (['b'], 2, 0), (['c'], 3, 0)].tail :=
  ⟨(C4_lru_bound_and_eviction 2 3600).1 [(['a'], 1, 0), (['b'], 2, 0), (['a'], 3, 1)],
   (C4_lru_bound_and_eviction 2 3600).2 [(['a'], 1, 0), (['b'], 2, 0), (['c'], 3, 0)]
     (by decide) (by decide)⟩

/-! Helper lemmas about `alistUpdate` and `RateLimiter.is_allowed`. -/

theorem alistFind_update_self {κ β : Type} [DecidableEq κ] (key : κ) (v : β)
    (l : List (κ × β)) : alistFind key (alistUpdate key v l) = some v := by
  induction l with
  | nil => simp [alistUpdate, alistFind]
  | cons e rest ih =>
    obtain ⟨k, w⟩ := e
    by_cases hk : k = key
    · simp [alistUpdate, alistFind, hk]
    · simp [alistUpdate, alistFind, hk, ih]

theorem alistFind_update_other {κ β : Type} [DecidableEq κ] (key key' : κ) (v : β)
    (l : List (κ × β)) (h : key ≠ key') :
    alistFind key (alistUpdate key' v l) = alistFind key l := by
  induction l with
  | nil => simp [alistUpdate, alistFind, Ne.symm h]
  | cons e rest ih =>
    obtain ⟨k, w⟩ := e
    by_cases hk : k = key'
    · subst hk
      have hk2 : ¬ k = key := fun hc => h hc.symm
      simp [alistUpdate, alistFind, hk2]
    · simp [alistUpdate, alistFind, hk, ih]

theorem is_allowed_rpm (now : ℚ) (ip : String) (rl : RateLimiter) :
    (RateLimiter.is_allowed now ip rl).2.requests_per_minute = rl.requests_per_minute := by
  simp only [RateLimiter.is_allowed]
  split <;> rfl

theorem is_allowed_hist_other (now : ℚ) (ip ip' : String) (rl : RateLimiter)
    (h : ip' ≠ ip) :
    histOf ip' (RateLimiter.is_allowed now ip rl).2 = histOf ip' rl := by
  simp only [RateLimiter.is_allowed, histOf]
  split <;> simp [alistFind_update_other ip' ip _ _ h]

theorem is_allowed_hist_self (now : ℚ) (ip : String) (rl : RateLimiter) :
    histOf ip (RateLimiter.is_allowed now ip rl).2
      = (if ((histOf ip rl).filter (fun t => decide (now - t < 60))).length
            < rl.requests_per_minute
         then (histOf ip rl).filter (fun t => decide (now - t < 60)) ++ [now]
         else (histOf ip rl).filter (fun t => decide (now - t < 60)))
  ∧ ((RateLimiter.is_allowed now ip rl).1 = true
       ↔ ((histOf ip rl).filter (fun t => decide (now - t < 60))).length
            < rl.requests_per_minute) := by
  simp only [RateLimiter.is_allowed, histOf]
  split
  · rename_i hge
    rw [if_neg (by omega)]
    simp [alistFind_update_self, Nat.lt_iff_add_one_le]
    omega
  · rename_i hlt
    rw [if_pos (by omega)]
    simp [alistFind_update_self]
    omega

theorem applyCalls_hist_le (limit : Nat) (ops : List (String × ℚ)) (rl : RateLimiter)
    (hrpm : rl.requests_per_minute = limit)
    (hinv : ∀ ip, (histOf ip rl).length ≤ limit) :
    ∀ ip, (histOf ip (applyCalls ops rl)).length ≤ limit := by
  induction ops generalizing rl with
  | nil => exact hinv
  | cons op ops ih =>
    obtain ⟨ip0, t0⟩ := op
    rw [applyCalls]
    apply ih
    · rw [is_allowed_rpm, hrpm]
    · intro ip
      by_cases hip : ip = ip0
      · subst hip
        rw [(is_allowed_hist_self t0 ip rl).1]
        split
        · rename_i hlt
          rw [List.length_append]
          simp only [List.length_cons, List.length_nil]
          omega
        · exact le_trans (List.length_filter_le _ _) (hinv ip)
      · rw [is_allowed_hist_other t0 ip0 ip rl hip]
        exact hinv ip

/-- C10: starting from the initial (empty) rate-limiter state with any limit,
after every sequence of `is_allowed` calls each client's stored history holds
at most `limit` timestamps; and each single call stores exactly the pruned
history (appending nothing) when it denies, and the pruned history plus the
one new timestamp when it allows, allowing exactly when the pruned count is
strictly below the limit. -/
theorem C10_history_bound (limit : Nat) (ops : List (String × ℚ)) (ip : String) :
    (histOf ip (applyCalls ops ⟨limit, []⟩)).length ≤ limit
  ∧ ∀ (rl : RateLimiter) (now : ℚ) (ip2 : String),
      histOf ip2 (RateLimiter.is_allowed now ip2 rl).2
        = (if ((histOf ip2 rl).filter (fun t => decide (now - t < 60))).length
              < rl.requests_per_minute
           then (histOf ip2 rl).filter (fun t => decide (now - t < 60)) ++ [now]
           else (histOf ip2 rl).filter (fun t => decide (now - t < 60)))
      ∧ ((RateLimiter.is_allowed now ip2 rl).1 = true
           ↔ ((histOf ip2 rl).filter (fun t => decide (now - t < 60))).length
                < rl.requests_per_minute) := by
  refine ⟨?_, fun rl now ip2 => is_allowed_hist_self now ip2 rl⟩
  apply applyCalls_hist_le limit ops ⟨limit, []⟩ rfl
  intro j
  simp [histOf, alistFind]

theorem length_filter_lt_of_mem_false {α : Type} {p : α → Bool} {l : List α} {a : α}
    (ha : a ∈ l) (hpa : p a = false) : (l.filter p).length < l.length := by
  induction l with
  | nil => cases ha
  | cons b l ih =>
    rw [List.filter_cons]
    rcases List.mem_cons.mp ha with rfl | hmem
    · rw [hpa]
      simp only [Bool.false_eq_true, if_false, List.length_cons]
      exact Nat.lt_succ_of_le (List.length_filter_le p l)
    · by_cases hpb : p b = true
      · rw [if_pos hpb]
        simpa using ih hmem
      · rw [if_neg hpb]
        exact Nat.lt_succ_of_le (List.length_filter_le p l)

/-- Running `is_allowed` at times inside the one-second window `[t1, t1 + 1)`
for a single client whose stored history also lies inside that window and
whose total count stays within the limit 10: every call is allowed and the
history accumulates all call times in order. -/
theorem runCalls_within (ip : String) (t1 : ℚ) (ts : List ℚ) :
    ∀ hist : List ℚ,
      (∀ t ∈ hist, t1 ≤ t ∧ t < t1 + 1) →
      (∀ t ∈ ts, t1 ≤ t ∧ t < t1 + 1) →
      hist.length + ts.length ≤ 10 →
      runCalls ip ts ⟨10, [(ip, hist)]⟩
        = (List.replicate ts.length true, ⟨10, [(ip, hist ++ ts)]⟩) := by
  induction ts with
  | nil =>
    intro hist _ _ _
    simp [runCalls]
  | cons t ts ih =>
    intro hist hh ht hlen
    have hfind : alistFind ip [(ip, hist)] = some hist := by simp [alistFind]
    have hfilter : hist.filter (fun x => decide (t - x < 60)) = hist := by
      apply List.filter_eq_self.mpr
      intro a ha
      have h1 := hh a ha
      have h2 := ht t (List.mem_cons_self t ts)
      simp only [decide_eq_true_eq]
      linarith [h1.1, h1.2, h2.1, h2.2]
    have hstep : RateLimiter.is_allowed t ip ⟨10, [(ip, hist)]⟩
        = (true, ⟨10, [(ip, hist ++ [t])]⟩) := by
      simp only [RateLimiter.is_allowed, hfind, Option.getD_some, hfilter]
      rw [if_neg (by simp at hlen ⊢; omega)]
      simp [alistUpdate]
    simp only [runCalls]
    rw [hstep]
    rw [ih (hist ++ [t])
      (by
        intro x hx
        rcases List.mem_append.mp hx with hx | hx
        · exact hh x hx
        · simp at hx
          subst hx
          exact ht x (List.mem_cons_self x ts))
      (fun x hx => ht x (List.mem_cons_of_mem _ hx))
      (by simp at hlen ⊢; omega)]
    simp [List.replicate_succ]

/-- C6: with the limit of 10 requests per minute (line 124), any 10 calls for
one client at times inside a one-second window are all allowed; an 11th call
within 60 seconds of the first is denied; and a further call strictly more
than 60 seconds after the first call is allowed again. -/
theorem C6_rate_window (ip : String) (t1 : ℚ) (ts : List ℚ)
    (hlen : ts.length = 10) (hhead : ts.head? = some t1)
    (hmem : ∀ t ∈ ts, t1 ≤ t ∧ t < t1 + 1)
    (t11 t12 : ℚ) (h11a : t1 ≤ t11) (h11b : t11 < t1 + 60) (h12 : t1 + 60 < t12) :
    (∀ b ∈ (runCalls ip ts rate_limiter_init).1, b = true)
  ∧ (RateLimiter.is_allowed t11 ip (runCalls ip ts rate_limiter_init).2).1 = false
  ∧ (RateLimiter.is_allowed t12 ip
       (RateLimiter.is_allowed t11 ip (runCalls ip ts rate_limiter_init).2).2).1
      = true := by
  match ts, hlen with
  | t :: rest, hlen =>
  have ht1 : t1 = t := by
    have h := hhead
    simp only [List.head?_cons, Option.some.injEq] at h
    exact h.symm
  subst ht1
  have hrest_len : rest.length = 9 := by simpa using hlen
  have hstep0 : RateLimiter.is_allowed t1 ip rate_limiter_init
      = (true, ⟨10, [(ip, [t1])]⟩) := by
    simp [RateLimiter.is_allowed, rate_limiter_init, alistFind, alistUpdate]
  have hrun : runCalls ip (t1 :: rest) rate_limiter_init
      = (true :: List.replicate rest.length true, ⟨10, [(ip, t1 :: rest)]⟩) := by
    simp only [runCalls]
    rw [hstep0]
    rw [runCalls_within ip t1 rest [t1]
      (by
        intro x hx
        simp at hx
        subst hx
        constructor
        · linarith
        · linarith)
      (fun x hx => hmem x (List.mem_cons_of_mem _ hx))
      (by simp [hrest_len])]
    simp
  rw [hrun]
  have hmem_t1 : t1 ∈ t1 :: rest := List.mem_cons_self t1 rest
  have hfind10 : alistFind ip [(ip, t1 :: rest)] = some (t1 :: rest) := by
    simp [alistFind]
  have hfilter11 : (t1 :: rest).filter (fun x => decide (t11 - x < 60)) = t1 :: rest := by
    apply List.filter_eq_self.mpr
    intro a ha
    have h1 := hmem a ha
    simp only [decide_eq_true_eq]
    linarith [h1.1]
  have hstep11 : RateLimiter.is_allowed t11 ip (⟨10, [(ip, t1 :: rest)]⟩ : RateLimiter)
      = (false, ⟨10, [(ip, t1 :: rest)]⟩) := by
    simp only [RateLimiter.is_allowed, hfind10, Option.getD_some, hfilter11]
    rw [if_pos (by simp [hrest_len])]
    simp [alistUpdate]
  have hfilter12 :
      ((t1 :: rest).filter (fun x => decide (t12 - x < 60))).length < 10 := by
    have := length_filter_lt_of_mem_false (p := fun x => decide (t12 - x < 60))
      hmem_t1 (by simp only [decide_eq_false_iff_not]; intro hc; linarith)
    omega
  have hstep12 : (RateLimiter.is_allowed t12 ip
      (⟨10, [(ip, t1 :: rest)]⟩ : RateLimiter)).1 = true := by
    simp only [RateLimiter.is_allowed, hfind10, Option.getD_some]
    rw [if_neg (by omega)]
  refine ⟨?_, ?_, ?_⟩
  · intro b hb
    rcases List.mem_cons.mp hb with rfl | hb
    · rfl
    · exact List.eq_of_mem_replicate hb
  · rw [hstep11]
  · rw [hstep11]
    exact hstep12

/-- Witness for C6: client `"c"`, ten calls all at time 0, an 11th call at
time 0 (within the minute), and a 12th call at time 61 (more than 60 seconds
after the first). -/
theorem C6_witness :
    (∀ b ∈ (runCalls "c" (List.replicate 10 (0 : ℚ)) rate_limiter_init).1, b = true)
  ∧ (RateLimiter.is_allowed 0 "c"
       (runCalls "c" (List.replicate 10 (0 : ℚ)) rate_limiter_init).2).1 = false
  ∧ (RateLimiter.is_allowed 61 "c"
       (RateLimiter.is_allowed 0 "c"
         (runCalls "c" (List.replicate 10 (0 : ℚ)) rate_limiter_init).2).2).1 = true :=
  C6_rate_window "c" 0 (List.replicate 10 (0 : ℚ)) (by simp) (by simp)
    (by
      intro t ht
      rw [List.eq_of_mem_replicate ht]
      exact ⟨le_refl 0, by simp only [zero_add]; decide⟩)
    0 61 (le_refl 0) (by simp only [zero_add]; decide) (by simp only [zero_add]; decide)

/-! Character-level lemmas for the normalizer. -/

theorem char_toNat_ofNat {n : Nat} (h : n < 55296) : (Char.ofNat n).toNat = n := by
  have hv : n.isValidChar := Or.inl h
  rw [Char.ofNat, dif_pos hv]
  rfl

theorem pyToLower_idem (c : Char) : pyToLower (pyToLower c) = pyToLower c := by
  by_cases h : 65 ≤ c.toNat ∧ c.toNat ≤ 90
  · have ht : (pyToLower c).toNat = c.toNat + 32 := by
      rw [pyToLower, if_pos h]
      exact char_toNat_ofNat (by omega)
    nth_rewrite 1 [pyToLower]
    rw [if_neg (by rw [ht]; omega)]
  · have h1 : pyToLower c = c := by rw [pyToLower, if_neg h]
    rw [h1, h1]

/-! Generic `dropWhile` lemmas. -/

theorem dropWhile_eq_self_of_head {α : Type} (p : α → Bool) (l : List α)
    (h : ∀ c, l.head? = some c → p c = false) : l.dropWhile p = l := by
  cases l with
  | nil => rfl
  | cons a l => rw [List.dropWhile_cons, if_neg (by simp [h a rfl])]

theorem head_dropWhile_false {α : Type} (p : α → Bool) (l : List α) :
    ∀ c, (l.dropWhile p).head? = some c → p c = false := by
  induction l with
  | nil => intro c hc; cases hc
  | cons a l ih =>
    intro c hc
    rw [List.dropWhile_cons] at hc
    by_cases hpa : p a = true
    · rw [if_pos hpa] at hc
      exact ih c hc
    · rw [if_neg hpa] at hc
      simp only [List.head?_cons, Option.some.injEq] at hc
      subst hc
      simpa using hpa

theorem dropWhile_idem {α : Type} (p : α → Bool) (l : List α) :
    (l.dropWhile p).dropWhile p = l.dropWhile p :=
  dropWhile_eq_self_of_head p _ (head_dropWhile_false p l)

/-! `rstripPunct` lemmas. -/

theorem rstripPunct_prefix (l : List Char) : rstripPunct l <+: l := by
  rw [rstripPunct]
  apply List.reverse_suffix.mp
  rw [List.reverse_reverse]
  exact List.dropWhile_suffix _

theorem rstripPunct_idem (l : List Char) : rstripPunct (rstripPunct l) = rstripPunct l := by
  simp only [rstripPunct, List.reverse_reverse, dropWhile_idem]

/-! `stripWs` lemmas. -/

theorem stripWs_eq_self (l : List Char)
    (hh : ∀ c, l.head? = some c → pyIsSpace c = false)
    (hl : ∀ c, l.getLast? = some c → pyIsSpace c = false) :
    stripWs l = l := by
  rw [stripWs]
  rw [dropWhile_eq_self_of_head _ _ hh]
  rw [dropWhile_eq_self_of_head _ _ (by
    intro c hc
    rw [List.head?_reverse] at hc
    exact hl c hc)]
  exact List.reverse_reverse l

theorem stripWs_subset (l : List Char) : stripWs l ⊆ l := by
  intro c hc
  rw [stripWs, List.mem_reverse] at hc
  have h1 := (List.dropWhile_sublist pyIsSpace).subset hc
  rw [List.mem_reverse] at h1
  exact (List.dropWhile_sublist pyIsSpace).subset h1

/-! `splitWs` rewriting equations. -/

theorem splitWs_nil : splitWs [] = [] := rfl

theorem splitWs_cons_space (c : Char) (rest : List Char) (hc : pyIsSpace c = true) :
    splitWs (c :: rest) = splitWs rest := by
  rw [splitWs, splitWsAux, if_pos hc]
  simp [splitWs]

theorem splitWsAux_spec (l : List Char) :
    ∀ acc : List Char, acc ≠ [] →
      splitWsAux l acc
        = (acc.reverse ++ l.takeWhile notSpace) :: splitWs (l.dropWhile notSpace) := by
  induction l with
  | nil =>
    intro acc hacc
    rw [splitWsAux, if_neg (by simpa using hacc)]
    simp [splitWs, splitWsAux]
  | cons c rest ih =>
    intro acc hacc
    by_cases hc : pyIsSpace c = true
    · rw [splitWsAux, if_pos hc, if_neg (by simpa using hacc)]
      rw [List.takeWhile_cons, List.dropWhile_cons]
      rw [if_neg (by simp [notSpace, hc]), if_neg (by simp [notSpace, hc])]
      rw [splitWs_cons_space c rest hc]
      simp [splitWs]
    · rw [splitWsAux, if_neg hc]
      rw [ih (c :: acc) (by simp)]
      rw [List.takeWhile_cons, List.dropWhile_cons]
      rw [if_pos (by simp [notSpace, hc]), if_pos (by simp [notSpace, hc])]
      simp

theorem splitWs_cons_word (c : Char) (rest : List Char) (hc : pyIsSpace c = false) :
    splitWs (c :: rest)
      = (c :: rest.takeWhile notSpace) :: splitWs (rest.dropWhile notSpace) := by
  rw [splitWs, splitWsAux, if_neg (by simp [hc])]
  rw [splitWsAux_spec rest [c] (by simp)]
  simp

/-! Structural properties of `splitWs` and `joinSp`. -/

theorem splitWs_words_aux :
    ∀ (n : Nat) (l : List Char), l.length ≤ n →
      ∀ w ∈ splitWs l, w ≠ [] ∧ ∀ c ∈ w, pyIsSpace c = false := by
  intro n
  induction n with
  | zero =>
    intro l hl w hw
    rw [List.length_eq_zero.mp (Nat.le_zero.mp hl)] at hw
    cases hw
  | succ n ih =>
    intro l hl w hw
    cases l with
    | nil => cases hw
    | cons c rest =>
      by_cases hc : pyIsSpace c = true
      · rw [splitWs_cons_space c rest hc] at hw
        exact ih rest (by simpa using Nat.le_of_succ_le_succ (by simpa using hl)) w hw
      · rw [splitWs_cons_word c rest (by simpa using hc)] at hw
        rcases List.mem_cons.mp hw with rfl | hw
        · refine ⟨by simp, ?_⟩
          intro x hx
          rcases List.mem_cons.mp hx with rfl | hx
          · simpa using hc
          · have := List.mem_takeWhile_imp hx
            simpa [notSpace] using this
        · refine ih (rest.dropWhile notSpace) ?_ w hw
          have h1 := (List.dropWhile_sublist (l := rest) notSpace).length_le
          simp only [List.length_cons] at hl
          omega

theorem splitWs_words (l : List Char) :
    ∀ w ∈ splitWs l, w ≠ [] ∧ ∀ c ∈ w, pyIsSpace c = false :=
  splitWs_words_aux l.length l (le_refl _)

theorem splitWs_chars_aux :
    ∀ (n : Nat) (l : List Char), l.length ≤ n →
      ∀ w ∈ splitWs l, ∀ c ∈ w, c ∈ l := by
  intro n
  induction n with
  | zero =>
    intro l hl w hw
    rw [List.length_eq_zero.mp (Nat.le_zero.mp hl)] at hw
    cases hw
  | succ n ih =>
    intro l hl w hw c hc
    cases l with
    | nil => cases hw
    | cons a rest =>
      by_cases ha : pyIsSpace a = true
      · rw [splitWs_cons_space a rest ha] at hw
        exact List.mem_cons_of_mem a
          (ih rest (by simpa using Nat.le_of_succ_le_succ (by simpa using hl)) w hw c hc)
      · rw [splitWs_cons_word a rest (by simpa using ha)] at hw
        rcases List.mem_cons.mp hw with rfl | hw
        · rcases List.mem_cons.mp hc with rfl | hc
          · exact List.mem_cons_self _ _
          · exact List.mem_cons_of_mem a ((List.takeWhile_prefix notSpace).subset hc)
        · refine List.mem_cons_of_mem a ((List.dropWhile_suffix notSpace).subset ?_)
          refine ih (rest.dropWhile notSpace) ?_ w hw c hc
          have h1 := (List.dropWhile_sublist (l := rest) notSpace).length_le
          simp only [List.length_cons] at hl
          omega

theorem splitWs_chars (l : List Char) : ∀ w ∈ splitWs l, ∀ c ∈ w, c ∈ l :=
  splitWs_chars_aux l.length l (le_refl _)

theorem mem_joinSp (ws : List (List Char)) (c : Char) (hc : c ∈ joinSp ws) :
    c = ' ' ∨ ∃ w ∈ ws, c ∈ w := by
  induction ws with
  | nil => cases hc
  | cons w ws ih =>
    cases ws with
    | nil =>
      right
      exact ⟨w, by simp, hc⟩
    | cons w2 ws2 =>
      rw [joinSp] at hc
      rcases List.mem_append.mp hc with h | h
      · right
        exact ⟨w, by simp, h⟩
      · rcases List.mem_cons.mp h with rfl | h
        · left; rfl
        · rcases ih h with h | ⟨w', hw', hc'⟩
          · left; exact h
          · right
            exact ⟨w', by simp [hw'], hc'⟩

theorem joinSp_head (ws : List (List Char))
    (hws : ∀ w ∈ ws, w ≠ [] ∧ ∀ c ∈ w, pyIsSpace c = false) :
    ∀ c, (joinSp ws).head? = some c → pyIsSpace c = false := by
  induction ws with
  | nil => intro c hc; cases hc
  | cons w ws ih =>
    intro c hc
    have hw := hws w (List.mem_cons_self w ws)
    cases ws with
    | nil =>
      have : c ∈ w := by
        cases w with
        | nil => cases hc
        | cons a t =>
          simp only [joinSp, List.head?_cons, Option.some.injEq] at hc
          subst hc
          exact List.mem_cons_self _ _
      exact hw.2 c this
    | cons w2 ws2 =>
      rw [joinSp, List.head?_append_of_ne_nil w hw.1] at hc
      have : c ∈ w := by
        cases w with
        | nil => cases hc
        | cons a t =>
          simp only [List.head?_cons, Option.some.injEq] at hc
          subst hc
          exact List.mem_cons_self _ _
      exact hw.2 c this

theorem chain_of_nospace (w : List Char) (h : ∀ c ∈ w, pyIsSpace c = false) :
    noTwoSpaces w := by
  induction w with
  | nil => exact List.chain'_nil
  | cons a w ih =>
    refine List.chain'_cons'.mpr ⟨fun b _ => Or.inl (h a (List.mem_cons_self a w)), ?_⟩
    exact ih (fun c hc => h c (List.mem_cons_of_mem a hc))

theorem joinSp_chain (ws : List (List Char))
    (hws : ∀ w ∈ ws, w ≠ [] ∧ ∀ c ∈ w, pyIsSpace c = false) :
    noTwoSpaces (joinSp ws) := by
  induction ws with
  | nil => exact List.chain'_nil
  | cons w ws ih =>
    have hw := hws w (List.mem_cons_self w ws)
    cases ws with
    | nil => exact chain_of_nospace w hw.2
    | cons w2 ws2 =>
      rw [joinSp]
      have hws' : ∀ u ∈ w2 :: ws2, u ≠ [] ∧ ∀ c ∈ u, pyIsSpace c = false :=
        fun u hu => hws u (List.mem_cons_of_mem w hu)
      apply List.chain'_append.mpr
      refine ⟨chain_of_nospace w hw.2, ?_, ?_⟩
      · refine List.chain'_cons'.mpr ⟨?_, ih hws'⟩
        intro y hy
        exact Or.inr (joinSp_head (w2 :: ws2) hws' y hy)
      · intro x hx y hy
        exact Or.inl (hw.2 x (List.mem_of_getLast?_eq_some hx))

/-! The split-join round trip on canonical strings. -/

theorem joinSp_splitWs_aux :
    ∀ (n : Nat) (l : List Char), l.length ≤ n →
      noTwoSpaces l →
      (∀ c, l.head? = some c → pyIsSpace c = false) →
      (∀ c, l.getLast? = some c → pyIsSpace c = false) →
      (∀ c ∈ l, pyIsSpace c = true → c = ' ') →
      joinSp (splitWs l) = l := by
  intro n
  induction n with
  | zero =>
    intro l hl _ _ _ _
    rw [List.length_eq_zero.mp (Nat.le_zero.mp hl)]
    rfl
  | succ n ih =>
    intro l hl hchain hhead hlast hblank
    cases l with
    | nil => rfl
    | cons c rest =>
      have hc : pyIsSpace c = false := hhead c rfl
      rw [splitWs_cons_word c rest hc]
      have htd := List.takeWhile_append_dropWhile (p := notSpace) (l := rest)
      rcases heq : rest.dropWhile notSpace with _ | ⟨d, dw⟩
      · rw [heq, List.append_nil] at htd
        rw [splitWs_nil, htd]
        rfl
      · rw [heq] at htd
        have hd_space : pyIsSpace d = true := by
          have := head_dropWhile_false notSpace rest d (by rw [heq]; rfl)
          simpa [notSpace] using this
        have hd_mem : d ∈ c :: rest := by
          refine List.mem_cons_of_mem c ((List.dropWhile_suffix notSpace).subset ?_)
          rw [heq]
          exact List.mem_cons_self d dw
        have hd_blank : d = ' ' := hblank d hd_mem hd_space
        have hchain_ddw : noTwoSpaces (d :: dw) := by
          refine hchain.suffix ?_
          refine List.IsSuffix.trans ?_ (List.suffix_cons c rest)
          rw [← heq]
          exact List.dropWhile_suffix notSpace
        have hrest_eq : c :: rest = ((c :: rest.takeWhile notSpace) ++ [d]) ++ dw := by
          conv_lhs => rw [← htd]
          simp
        have hdw_ne : dw ≠ [] := by
          intro hdwnil
          subst hdwnil
          have hlastd : (c :: rest).getLast? = some d := by
            conv_lhs => rw [← htd, ← List.cons_append]
            exact List.getLast?_concat _
          have := hlast d hlastd
          rw [hd_space] at this
          cases this
        have hhead_dw : ∀ e, dw.head? = some e → pyIsSpace e = false := by
          intro e he
          have h1 := (List.chain'_cons'.mp hchain_ddw).1 e he
          rcases h1 with h1 | h1
          · rw [hd_space] at h1
            cases h1
          · exact h1
        have hlast_dw : ∀ e, dw.getLast? = some e → pyIsSpace e = false := by
          intro e he
          apply hlast e
          rw [hrest_eq, List.getLast?_append_of_ne_nil _ hdw_ne]
          exact he
        have hblank_dw : ∀ e ∈ dw, pyIsSpace e = true → e = ' ' := by
          intro e he hse
          refine hblank e ?_ hse
          rw [hrest_eq]
          exact List.mem_append.mpr (Or.inr he)
        have hchain_dw : noTwoSpaces dw := hchain_ddw.tail
        have hlen_dw : dw.length ≤ n := by
          have h1 : (rest.dropWhile notSpace).length ≤ rest.length :=
            (List.dropWhile_sublist notSpace).length_le
          rw [heq] at h1
          simp only [List.length_cons] at h1 hl
          omega
        have ihdw := ih dw hlen_dw hchain_dw hhead_dw hlast_dw hblank_dw
        obtain ⟨e, tl, rfl⟩ := List.exists_cons_of_ne_nil hdw_ne
        have he_nonspace : pyIsSpace e = false := hhead_dw e rfl
        rw [splitWs_cons_space d _ hd_space, splitWs_cons_word e tl he_nonspace]
        rw [joinSp]
        rw [← splitWs_cons_word e tl he_nonspace]
        rw [ihdw]
        rw [hd_blank] at htd
        conv_rhs => rw [← htd]
        simp

theorem joinSp_splitWs (l : List Char)
    (hchain : noTwoSpaces l)
    (hhead : ∀ c, l.head? = some c → pyIsSpace c = false)
    (hlast : ∀ c, l.getLast? = some c → pyIsSpace c = false)
    (hblank : ∀ c ∈ l, pyIsSpace c = true → c = ' ') :
    joinSp (splitWs l) = l :=
  joinSp_splitWs_aux l.length l (le_refl _) hchain hhead hlast hblank

theorem map_pyToLower_id (l : List Char) (h : ∀ c ∈ l, pyToLower c = c) :
    l.map pyToLower = l := by
  induction l with
  | nil => rfl
  | cons a l ih =>
    rw [List.map_cons, h a (List.mem_cons_self a l),
      ih (fun c hc => h c (List.mem_cons_of_mem a hc))]

/-- C3 (amended): `normalize_query` is idempotent on every input whose
normalized form does not end with a space character.  (The counterexample
`C3_counterexample` shows the unrestricted claim fails exactly when the
trailing-punctuation loop exposes a trailing space.) -/
theorem C3_amended_idempotent (s : List Char)
    (hns : (normalize_query s).getLast? ≠ some ' ') :
    normalize_query (normalize_query s) = normalize_query s := by
  set u : List Char := joinSp (splitWs (stripWs (s.map pyToLower))) with hu
  set t : List Char := rstripPunct u with ht
  have hns' : t.getLast? ≠ some ' ' := hns
  have hwords : ∀ w ∈ splitWs (stripWs (s.map pyToLower)),
      w ≠ [] ∧ ∀ c ∈ w, pyIsSpace c = false := splitWs_words _
  have hchain_u : noTwoSpaces u := joinSp_chain _ hwords
  have hhead_u : ∀ c, u.head? = some c → pyIsSpace c = false := joinSp_head _ hwords
  have hblank_u : ∀ c ∈ u, pyIsSpace c = true → c = ' ' := by
    intro c hc hs
    rcases mem_joinSp _ c hc with rfl | ⟨w, hw, hcw⟩
    · rfl
    · rw [(hwords w hw).2 c hcw] at hs
      cases hs
  have hlower_u : ∀ c ∈ u, pyToLower c = c := by
    intro c hc
    rcases mem_joinSp _ c hc with rfl | ⟨w, hw, hcw⟩
    · decide
    · have hcx := splitWs_chars _ w hw c hcw
      have hcm := stripWs_subset _ hcx
      obtain ⟨a, _, rfl⟩ := List.mem_map.mp hcm
      exact pyToLower_idem a
  have htp : t <+: u := rstripPunct_prefix u
  have hchain_t : noTwoSpaces t := hchain_u.prefix htp
  have hhead_t : ∀ c, t.head? = some c → pyIsSpace c = false := by
    intro c hc
    have hne : t ≠ [] := by
      intro h
      rw [h] at hc
      cases hc
    obtain ⟨r, hr⟩ := htp
    apply hhead_u
    rw [← hr, List.head?_append_of_ne_nil _ hne]
    exact hc
  have hblank_t : ∀ c ∈ t, pyIsSpace c = true → c = ' ' :=
    fun c hc hs => hblank_u c (htp.subset hc) hs
  have hlower_t : ∀ c ∈ t, pyToLower c = c :=
    fun c hc => hlower_u c (htp.subset hc)
  have hlast_t : ∀ c, t.getLast? = some c → pyIsSpace c = false := by
    intro c hc
    cases hb : pyIsSpace c with
    | false => rfl
    | true =>
      have hcu := htp.subset (List.mem_of_getLast?_eq_some hc)
      have hsp := hblank_u c hcu hb
      subst hsp
      exact absurd hc hns'
  show rstripPunct (joinSp (splitWs (stripWs (t.map pyToLower)))) = t
  rw [map_pyToLower_id t hlower_t]
  rw [stripWs_eq_self t hhead_t hlast_t]
  rw [joinSp_splitWs t hchain_t hhead_t hlast_t hblank_t]
  rw [ht]
  exact rstripPunct_idem u

/-- Witness for C3 (amended) at the concrete input `"Hello, World!"`, whose
normalized form `"hello, world"` does not end with a space. -/
theorem C3_amended_witness :
    normalize_query (normalize_query ("Hello, World!".toList))
      = normalize_query ("Hello, World!".toList) :=
  C3_amended_idempotent ("Hello, World!".toList) (by decide)

/-- C9 (amended): cache entries are immutable *except* on the cache-hit path
of `process_query` (lines 235-240), which mutates the stored response object
in place through the alias returned by `get`: on a hit, exactly the heap
object referenced by the hit entry has its `cached` field set to `true`, its
`response` text is preserved, every other heap address is untouched, and the
cache's entry list is exactly what `TTLCache.get` produces (no entry is
replaced or deleted by the mutation).  Overwrite (`set`) and eviction/expiry
deletion remain the only other ways entries change. -/
theorem C9_amended_frame (now : ℚ) (key : List Char) (c : TTLCache Nat) (h : Heap)
    (out : RespDict × TTLCache Nat × Heap)
    (hout : hit_path now key c h = some out) :
    ∃ addr obj,
      (TTLCache.get now key c).1 = some addr
    ∧ alistFind addr h = some obj
    ∧ out.1 = { obj with cached := true }
    ∧ out.1.response = obj.response
    ∧ out.2.1 = (TTLCache.get now key c).2
    ∧ out.2.2 = alistUpdate addr { obj with cached := true } h
    ∧ (∀ a, a ≠ addr → alistFind a out.2.2 = alistFind a h)
    ∧ alistFind addr out.2.2 = some { obj with cached := true } := by
  unfold hit_path at hout
  rcases hg : TTLCache.get now key c with ⟨ro, c'⟩
  rw [hg] at hout
  cases ro with
  | none => cases hout
  | some addr =>
    rcases hf : alistFind addr h with _ | obj
    · simp only [hf] at hout
      cases hout
    · simp only [hf] at hout
      simp only [Option.some.injEq] at hout
      subst hout
      refine ⟨addr, obj, rfl, hf, rfl, rfl, rfl, rfl, ?_, ?_⟩
      · intro a ha
        exact alistFind_update_other a addr _ h ha
      · exact alistFind_update_self addr _ h

/-- Witness for C9 (amended) at the concrete hit used by the counterexample:
one entry under key `"k"` referencing address 0, read at time 1 with
`ttl = 3600`. -/
theorem C9_witness :
    ∃ addr obj,
      (TTLCache.get 1 ("k".toList)
          (⟨[(("k".toList), 0, 0)], 100, 3600, 0, 0⟩ : TTLCache Nat)).1 = some addr
    ∧ alistFind addr ([(0, ⟨"r".toList, false⟩)] : Heap) = some obj
    ∧ (⟨"r".toList, true⟩ : RespDict) = { obj with cached := true }
    ∧ (⟨"r".toList, true⟩ : RespDict).response = obj.response
    ∧ (⟨[(("k".toList), 0, 0)], 100, 3600, 1, 0⟩ : TTLCache Nat)
        = (TTLCache.get 1 ("k".toList)
            (⟨[(("k".toList), 0, 0)], 100, 3600, 0, 0⟩ : TTLCache Nat)).2
    ∧ ([(0, ⟨"r".toList, true⟩)] : Heap)
        = alistUpdate addr { obj with cached := true } [(0, ⟨"r".toList, false⟩)]
    ∧ (∀ a, a ≠ addr →
         alistFind a ([(0, ⟨"r".toList, true⟩)] : Heap)
           = alistFind a ([(0, ⟨"r".toList, false⟩)] : Heap))
    ∧ alistFind addr ([(0, ⟨"r".toList, true⟩)] : Heap)
        = some { obj with cached := true } := by
  have h := C9_amended_frame 1 ("k".toList)
    ⟨[(("k".toList), 0, 0)], 100, 3600, 0, 0⟩ [(0, ⟨"r".toList, false⟩)]
    (⟨"r".toList, true⟩, ⟨[(("k".toList), 0, 0)], 100, 3600, 1, 0⟩,
      [(0, ⟨"r".toList, true⟩)])
    (by simp [hit_path, TTLCache.get, alistFind, alistErase, alistUpdate])
  exact h

end RAGBackend
